import Mathlib

/-!
Verification development for the OCR-based image renamer (src/main.py).

Python strings are modelled as `List Char`; the filesystem registry
(`existing_names`) as a `Finset (List Char)`.  External effects (the OCR
backend and the `rename` syscall) are passed in as explicit outcomes, so
Python's try/except blocks become total functions on those outcomes.
The regex character classes `\w` and `\s` and `str.lower` are modelled by
their ASCII fragments; every extension and sentinel character the program
manipulates is ASCII.
-/

set_option autoImplicit false

/-- ASCII fragment of the regex class `\s` (Python whitespace). -/
def isPySpace (c : Char) : Bool :=
  c == ' ' || c == '\t' || c == '\n' || c == '\r' || c == '\x0B' || c == '\x0C'

/-- ASCII fragment of the regex class `\w`: alphanumerics and underscore. -/
def isPyWord (c : Char) : Bool :=
  c.isAlphanum || c == '_'

/-- Core of `re.sub(p+, "_", s)`: every maximal run of characters satisfying
`p` is replaced by a single underscore.  The flag records whether the previous
character was inside such a run. -/
def subRunsAux (p : Char → Bool) : Bool → List Char → List Char
  | _, [] => []
  | inRun, c :: cs =>
    if p c then
      if inRun then subRunsAux p true cs
      else '_' :: subRunsAux p true cs
    else c :: subRunsAux p false cs

/-- Model of `re.sub(p+, "_", s)`. -/
def subRuns (p : Char → Bool) (l : List Char) : List Char :=
  subRunsAux p false l

/-- Detects two consecutive underscores (`"__"` as a substring). -/
def hdu : List Char → Bool
  | [] => false
  | [_] => false
  | a :: b :: cs => (a == '_' && b == '_') || hdu (b :: cs)

/-- Model of Python `s.rstrip('_')`: removes the maximal trailing run of
underscores. -/
def rstripU : List Char → List Char
  | [] => []
  | c :: cs =>
    if (rstripU cs).isEmpty then (if c == '_' then [] else [c]) else c :: rstripU cs

/-- Model of the trailing-whitespace half of Python `s.strip()`. -/
def rstripWs : List Char → List Char
  | [] => []
  | c :: cs =>
    if (rstripWs cs).isEmpty then (if isPySpace c then [] else [c]) else c :: rstripWs cs

/-- Model of Python `s.strip()`: leading and trailing whitespace removed. -/
def pyStrip (l : List Char) : List Char :=
  rstripWs (l.dropWhile isPySpace)

/-- Step (a) of `clean_text_for_filename`:
`re.sub(r"[^\w\s]", "_", text)` — every character that is neither a word
character nor whitespace becomes an underscore. -/
def sanStep1 (l : List Char) : List Char :=
  l.map (fun c => if isPyWord c || isPySpace c then c else '_')

/-- Step (b): `text.replace("\n", " ")`. -/
def sanStep2 (l : List Char) : List Char :=
  l.map (fun c => if c == '\n' then ' ' else c)

/-- Step (c): `re.sub(r"\s+", "_", text)`. -/
def sanStep3 (l : List Char) : List Char :=
  subRuns isPySpace l

/-- Step (d): `re.sub(r"_+", "_", text)`. -/
def sanStep4 (l : List Char) : List Char :=
  subRuns (fun c => c == '_') l

/-- Step (e): `re.sub(r"^[a-zA-Z0-9]+", "", text)` complement form — drop the
leading characters that are not ASCII alphanumerics. -/
def sanStep5 (l : List Char) : List Char :=
  l.dropWhile (fun c => !c.isAlphanum)

/-- Model of `ImageRenamer.clean_text_for_filename(text, max_length)`:
the substitution pipeline, then `text[:max_length].rstrip('_')`. -/
def clean_text_for_filename (text : List Char) (max_length : Nat) : List Char :=
  rstripU ((sanStep5 (sanStep4 (sanStep3 (sanStep2 (sanStep1 text))))).take max_length)

/-- `ImageRenamer.MAX_FILENAME_LENGTH`. -/
def MAX_FILENAME_LENGTH : Nat := 255

/-- Decimal digits of `n`, written with an explicit iteration budget so the
definition is structurally recursive (`n` itself bounds the number of
divisions by 10). -/
def toDecimalAux : Nat → Nat → List Char
  | 0, _ => []
  | fuel + 1, n =>
    if n = 0 then []
    else toDecimalAux fuel (n / 10) ++ [Nat.digitChar (n % 10)]

/-- Model of Python `str(n)` for a natural number. -/
def natDigits (n : Nat) : List Char :=
  if n = 0 then ['0'] else toDecimalAux n n

/-- Numeric value of a decimal digit character. -/
def chVal (c : Char) : Nat := c.toNat - 48

/-- Decimal value of a digit string (used to invert `natDigits`). -/
def valOf (l : List Char) : Nat :=
  l.foldl (fun a c => 10 * a + chVal c) 0

/-- Model of the Python slice `s[:n]` with a possibly negative bound. -/
def pySlice (s : List Char) (n : Int) : List Char :=
  if 0 ≤ n then s.take n.toNat else s.take ((s.length : Int) + n).toNat

/-- The `counter`-th candidate name tried by
`ImageRenamer.generate_unique_filename`: `_<base><ext>` for counter 0 (the
name tried before the loop), and `_<truncated-base>_<counter><ext>` inside
the loop, where the base is cut to
`MAX_FILENAME_LENGTH - len(str(counter)) - len(ext) - 2` characters. -/
def candidate (base ext : List Char) (k : Nat) : List Char :=
  if k = 0 then '_' :: (base ++ ext)
  else
    '_' :: (pySlice base ((MAX_FILENAME_LENGTH : Int) - (natDigits k).length - ext.length - 2)
      ++ '_' :: (natDigits k ++ ext))

/-- One unfolding of the `while new_name in existing_names` loop per unit of
fuel: at counter `k` the loop returns `candidate base ext k` as soon as it is
free, otherwise increments the counter.  The fuel-exhaustion branch returns
the current candidate unchecked; the termination theorem shows that with fuel
`S.card + 2` this branch is never reached. -/
def genLoopFuel (base ext : List Char) (S : Finset (List Char)) : Nat → Nat → List Char
  | 0, k => candidate base ext k
  | fuel + 1, k =>
    if candidate base ext k ∈ S then genLoopFuel base ext S fuel (k + 1)
    else candidate base ext k

/-- Model of `ImageRenamer.generate_unique_filename(base_name, extension,
existing_names)`.  The source's while loop is unbounded; it is modelled with
an iteration budget of `S.card + 2`, which the termination theorem proves is
never exhausted, so this function computes exactly the loop's result. -/
def generate_unique_filename (base ext : List Char) (S : Finset (List Char)) : List Char :=
  genLoopFuel base ext S (S.card + 2) 0

/-- A path component pair: the directory part and the final name, the two
pieces of a `pathlib.Path` that the renamer manipulates. -/
structure PyPath where
  parent : List Char
  name : List Char
deriving DecidableEq, Repr

/-- Index of the last `'.'` in a name (Python `name.rfind('.')`), if any. -/
def lastDotIdx (name : List Char) : Option Nat :=
  match List.findIdx? (fun c => c == '.') name.reverse with
  | none => none
  | some j => some (name.length - 1 - j)

/-- Model of `pathlib.PurePath.suffix`: the part of the name from its last
dot, provided that dot is neither the first nor the last character. -/
def pySuffix (name : List Char) : List Char :=
  match lastDotIdx name with
  | none => []
  | some i => if 0 < i ∧ i < name.length - 1 then name.drop i else []

/-- Model of `pathlib.PurePath.stem`. -/
def pyStem (name : List Char) : List Char :=
  match lastDotIdx name with
  | none => name
  | some i => if 0 < i ∧ i < name.length - 1 then name.take i else name

/-- The uppercase-to-lowercase table for ASCII letters. -/
def lowerPairs : List (Char × Char) :=
  [('A', 'a'), ('B', 'b'), ('C', 'c'), ('D', 'd'), ('E', 'e'), ('F', 'f'), ('G', 'g'),
   ('H', 'h'), ('I', 'i'), ('J', 'j'), ('K', 'k'), ('L', 'l'), ('M', 'm'), ('N', 'n'),
   ('O', 'o'), ('P', 'p'), ('Q', 'q'), ('R', 'r'), ('S', 's'), ('T', 't'), ('U', 'u'),
   ('V', 'v'), ('W', 'w'), ('X', 'x'), ('Y', 'y'), ('Z', 'z')]

/-- Table lookup with identity fallback. -/
def lowerLookup : List (Char × Char) → Char → Char
  | [], c => c
  | (u, l) :: rest, c => if c = u then l else lowerLookup rest c

/-- ASCII model of `str.lower` on a single character. -/
def pyToLower (c : Char) : Char := lowerLookup lowerPairs c

/-- ASCII model of `str.lower`. -/
def pyLower (l : List Char) : List Char := l.map pyToLower

/-- `ImageRenamer.VALID_EXTENSIONS`, verbatim from the source (note the
uppercase `.PNG` and the dot-less `JPG`). -/
def VALID_EXTENSIONS : List (List Char) :=
  [".jpg".data, ".jpeg".data, ".png".data, ".gif".data, ".PNG".data, "JPG".data]

/-- A directory entry as seen by `Path.iterdir()`: its final name and whether
it is a regular file. -/
structure DirEntry where
  name : List Char
  isRegularFile : Bool
deriving DecidableEq, Repr

/-- Model of `ImageRenamer._is_valid_image_file(file_path)`:
not a regular file → excluded; `skip_existing` and the stem starts with the
sentinel `'_'` → excluded; otherwise included iff the lowercased suffix is in
`VALID_EXTENSIONS`. -/
def is_valid_image_file (skip_existing : Bool) (e : DirEntry) : Bool :=
  if !e.isRegularFile then false
  else if skip_existing && decide ((pyStem e.name).head? = some '_') then false
  else decide (pyLower (pySuffix e.name) ∈ VALID_EXTENSIONS)

/-- Models the argparse declaration
`add_argument("--process-all", action="store_true", dest="skip_existing")`:
the stored `skip_existing` value is `false` when the flag is absent and
`true` exactly when `--process-all` is given. -/
def cli_skip_existing (process_all_given : Bool) : Bool := process_all_given

/-- The record built by `ImageRenamer.get_image_files` for each kept entry. -/
structure ImageFile where
  path : PyPath
  original_name : List Char
  extension : List Char
deriving DecidableEq, Repr

/-- Construction of an `ImageFile` from a path, as in `get_image_files`:
`original_name` is the stem and `extension` is the lowercased suffix. -/
def mkImageFile (p : PyPath) : ImageFile :=
  { path := p
    original_name := pyStem p.name
    extension := pyLower (pySuffix p.name) }

/-- Model of `ImageRenamer.extract_text_from_image`.  The `PIL`/`pytesseract`
call is passed in as its outcome: an exception (caught by the function, which
then returns `none`) or the raw OCR string.  On a string the source returns
`text.strip() if text else None`. -/
def extract_text_from_image (ocrResult : Except Unit (List Char)) : Option (List Char) :=
  match ocrResult with
  | .error _ => none
  | .ok text => if text.isEmpty then none else some (pyStrip text)

/-- The base-name computation inside `ImageRenamer.process_image`:
`meme_<len(existing_names)>` when the extracted text is falsy (`None` or
empty), else the sanitized text with budget
`MAX_FILENAME_LENGTH - len(extension) - 2`. -/
def base_name_for (img : ImageFile) (text : Option (List Char)) (S : Finset (List Char)) :
    List Char :=
  match text with
  | none => "meme_".data ++ natDigits S.card
  | some t =>
    if t.isEmpty then "meme_".data ++ natDigits S.card
    else clean_text_for_filename t (MAX_FILENAME_LENGTH - img.extension.length - 2)

/-- Model of `ImageRenamer.process_image(image_file, existing_names)`.
The OCR outcome and the success of the `rename` syscall are explicit inputs.
The function returns the registry after the call and the rename target, if
any.  A failing rename raises inside the try block, so the registry insertion
is skipped and the except branch merely logs: the result is `(S, none)`. -/
def process_image (img : ImageFile) (ocrResult : Except Unit (List Char))
    (renameOk : Bool) (existing_names : Finset (List Char)) :
    Finset (List Char) × Option PyPath :=
  let text := extract_text_from_image ocrResult
  let base_name := base_name_for img text existing_names
  let new_name := generate_unique_filename base_name img.extension existing_names
  let new_path : PyPath := ⟨img.path.parent, new_name⟩
  if renameOk then (insert new_name existing_names, some new_path)
  else (existing_names, none)

/-! ### List infrastructure -/

theorem map_eq_self_of {f : Char → Char} {l : List Char} (h : ∀ c ∈ l, f c = c) :
    l.map f = l := by
  induction l with
  | nil => rfl
  | cons c cs ih =>
    simp only [List.map_cons]
    rw [h c (List.mem_cons_self c cs), ih fun d hd => h d (List.mem_cons_of_mem c hd)]

theorem take_head?_pos {l : List Char} {n : Nat} (h : 0 < n) : (l.take n).head? = l.head? := by
  cases n with
  | zero => omega
  | succ m => cases l <;> rfl

theorem head?_of_take {l : List Char} {n : Nat} {c : Char} (h : (l.take n).head? = some c) :
    l.head? = some c := by
  cases n with
  | zero => simp at h
  | succ m => rw [take_head?_pos (Nat.succ_pos m)] at h; exact h

theorem dropWhile_eq_drop (p : Char → Bool) : ∀ l : List Char, ∃ n, l.dropWhile p = l.drop n
  | [] => ⟨0, rfl⟩
  | c :: cs => by
    cases hp : p c with
    | true =>
      obtain ⟨n, hn⟩ := dropWhile_eq_drop p cs
      exact ⟨n + 1, by simp [List.dropWhile_cons, hp, hn]⟩
    | false => exact ⟨0, by simp [List.dropWhile_cons, hp]⟩

theorem head?_dropWhile_false {p : Char → Bool} {l : List Char} {c : Char}
    (h : (l.dropWhile p).head? = some c) : p c = false := by
  induction l with
  | nil => simp at h
  | cons a l ih =>
    rw [List.dropWhile_cons] at h
    by_cases hp : p a = true
    · rw [if_pos hp] at h; exact ih h
    · rw [if_neg hp] at h
      simp only [List.head?_cons, Option.some.injEq] at h
      subst h
      exact Bool.not_eq_true _ ▸ hp

theorem dropWhile_all_nil {p : Char → Bool} {l : List Char} (h : ∀ c ∈ l, p c = true) :
    l.dropWhile p = [] := by
  induction l with
  | nil => rfl
  | cons a l ih =>
    rw [List.dropWhile_cons, if_pos (h a (List.mem_cons_self a l))]
    exact ih fun c hc => h c (List.mem_cons_of_mem a hc)

theorem dropWhile_cons_self {p : Char → Bool} {a : Char} {l : List Char} (h : p a = false) :
    (a :: l).dropWhile p = a :: l := by
  rw [List.dropWhile_cons, if_neg (by simp [h])]

theorem rstripU_cons_of_nil {c : Char} {cs : List Char} (h : rstripU cs = []) :
    rstripU (c :: cs) = if c == '_' then [] else [c] := by
  rw [rstripU, h]
  rfl

theorem rstripU_cons_of_ne {c : Char} {cs : List Char} (h : rstripU cs ≠ []) :
    rstripU (c :: cs) = c :: rstripU cs := by
  rw [rstripU, if_neg (by simpa using h)]

theorem rstripU_eq_take : ∀ l : List Char, ∃ m, rstripU l = l.take m
  | [] => ⟨0, rfl⟩
  | c :: cs => by
    obtain ⟨m, hm⟩ := rstripU_eq_take cs
    cases h : rstripU cs with
    | nil =>
      by_cases hc : (c == '_') = true
      · exact ⟨0, by simp [rstripU_cons_of_nil h, hc]⟩
      · refine ⟨1, ?_⟩
        rw [rstripU_cons_of_nil h, if_neg hc]
        rfl
    | cons d ds =>
      refine ⟨m + 1, ?_⟩
      rw [rstripU_cons_of_ne (by simp [h]), List.take_succ_cons, ← hm]

theorem rstripU_getLast? : ∀ l : List Char, (rstripU l).getLast? ≠ some '_'
  | [] => by simp [rstripU]
  | c :: cs => by
    cases h : rstripU cs with
    | nil =>
      by_cases hc : (c == '_') = true
      · simp [rstripU_cons_of_nil h, hc]
      · rw [rstripU_cons_of_nil h, if_neg hc]
        simp only [List.getLast?_singleton, Ne, Option.some.injEq]
        intro hcc
        exact hc (by simp [hcc])
    | cons d ds =>
      have ih := rstripU_getLast? cs
      rw [h] at ih
      rw [rstripU_cons_of_ne (by simp [h]), h, List.getLast?_cons_cons]
      exact ih

theorem rstripU_eq_self : ∀ {l : List Char}, l.getLast? ≠ some '_' → rstripU l = l
  | [], _ => rfl
  | c :: cs, h => by
    cases cs with
    | nil =>
      have hc : ¬(c = '_') := by simpa using h
      rw [rstripU_cons_of_nil (show rstripU [] = [] from rfl), if_neg (by simpa using hc)]
    | cons x xs =>
      have h' : (x :: xs).getLast? ≠ some '_' := by
        rwa [List.getLast?_cons_cons] at h
      have ih := rstripU_eq_self h'
      rw [rstripU_cons_of_ne (by simp [ih]), ih]

theorem rstripU_head? {l : List Char} {c : Char} (h : (rstripU l).head? = some c) :
    l.head? = some c := by
  obtain ⟨m, hm⟩ := rstripU_eq_take l
  rw [hm] at h
  exact head?_of_take h

theorem mem_of_mem_rstripU {c : Char} {l : List Char} (h : c ∈ rstripU l) : c ∈ l := by
  obtain ⟨m, hm⟩ := rstripU_eq_take l
  rw [hm] at h
  exact List.take_subset m l h

theorem mem_of_mem_dropWhile {p : Char → Bool} {c : Char} {l : List Char}
    (h : c ∈ l.dropWhile p) : c ∈ l := by
  obtain ⟨n, hn⟩ := dropWhile_eq_drop p l
  rw [hn] at h
  exact List.drop_subset n l h

/-! ### Lemmas about `hdu` (the double-underscore detector) -/

theorem hdu_cons_false : ∀ {a : Char} {l : List Char}, hdu (a :: l) = false → hdu l = false
  | _, [], _ => rfl
  | a, b :: l, h => by
    simp only [hdu, Bool.or_eq_false_iff] at h
    exact h.2

theorem hdu_pair {a b : Char} {l : List Char} (h : hdu (a :: b :: l) = false) :
    ¬(a = '_' ∧ b = '_') := by
  rintro ⟨ha, hb⟩
  subst ha; subst hb
  simp [hdu] at h

theorem hdu_pair_head {a : Char} {l : List Char} (h : hdu (a :: l) = false) (ha : a = '_') :
    l.head? ≠ some '_' := by
  cases l with
  | nil => simp
  | cons b bs =>
    intro hb
    simp only [List.head?_cons, Option.some.injEq] at hb
    exact hdu_pair h ⟨ha, hb⟩

theorem hdu_false_intro {a : Char} {l : List Char}
    (h1 : a = '_' → l.head? ≠ some '_') (h2 : hdu l = false) : hdu (a :: l) = false := by
  cases l with
  | nil => rfl
  | cons b bs =>
    simp only [hdu, Bool.or_eq_false_iff]
    refine ⟨?_, h2⟩
    by_cases ha : a = '_'
    · have hb : ¬(b = '_') := by
        intro hb
        exact h1 ha (by simp [hb])
      simp [ha, hb]
    · simp [ha]

theorem hdu_take : ∀ (l : List Char) (n : Nat), hdu l = false → hdu (l.take n) = false
  | [], n, _ => by simp [hdu]
  | _ :: _, 0, _ => rfl
  | a :: l, n + 1, h => by
    rw [List.take_succ_cons]
    refine hdu_false_intro ?_ (hdu_take l n (hdu_cons_false h))
    intro ha hh
    exact hdu_pair_head h ha (head?_of_take hh)

theorem hdu_drop : ∀ (n : Nat) (l : List Char), hdu l = false → hdu (l.drop n) = false
  | 0, _, h => h
  | _ + 1, [], _ => rfl
  | n + 1, a :: l, h => by
    rw [List.drop_succ_cons]
    exact hdu_drop n l (hdu_cons_false h)

theorem hdu_dropWhile {p : Char → Bool} {l : List Char} (h : hdu l = false) :
    hdu (l.dropWhile p) = false := by
  obtain ⟨n, hn⟩ := dropWhile_eq_drop p l
  rw [hn]
  exact hdu_drop n l h

theorem hdu_rstripU {l : List Char} (h : hdu l = false) : hdu (rstripU l) = false := by
  obtain ⟨m, hm⟩ := rstripU_eq_take l
  rw [hm]
  exact hdu_take l m h

/-! ### Lemmas about `subRunsAux` -/

theorem subRunsAux_nil {p : Char → Bool} {b : Bool} : subRunsAux p b [] = [] := by
  cases b <;> rfl

theorem subRunsAux_cons_pos_true (p : Char → Bool) {a : Char} {l : List Char}
    (hp : p a = true) : subRunsAux p true (a :: l) = subRunsAux p true l := by
  simp [subRunsAux, hp]

theorem subRunsAux_cons_pos_false (p : Char → Bool) {a : Char} {l : List Char}
    (hp : p a = true) : subRunsAux p false (a :: l) = '_' :: subRunsAux p true l := by
  simp [subRunsAux, hp]

theorem subRunsAux_cons_neg (p : Char → Bool) {b : Bool} {a : Char} {l : List Char}
    (hp : p a = false) : subRunsAux p b (a :: l) = a :: subRunsAux p false l := by
  cases b <;> simp [subRunsAux, hp]

theorem mem_subRunsAux {p : Char → Bool} {c : Char} :
    ∀ (l : List Char) (b : Bool), c ∈ subRunsAux p b l → c = '_' ∨ (c ∈ l ∧ p c = false) := by
  intro l
  induction l with
  | nil => intro b h; rw [subRunsAux_nil] at h; simp at h
  | cons a l ih =>
    intro b h
    cases hp : p a with
    | true =>
      cases b with
      | true =>
        rw [subRunsAux_cons_pos_true p hp] at h
        rcases ih true h with h1 | ⟨h2, h3⟩
        · exact Or.inl h1
        · exact Or.inr ⟨List.mem_cons_of_mem a h2, h3⟩
      | false =>
        rw [subRunsAux_cons_pos_false p hp] at h
        rcases List.mem_cons.mp h with h1 | h1
        · exact Or.inl h1
        · rcases ih true h1 with h2 | ⟨h2, h3⟩
          · exact Or.inl h2
          · exact Or.inr ⟨List.mem_cons_of_mem a h2, h3⟩
    | false =>
      rw [subRunsAux_cons_neg p hp] at h
      rcases List.mem_cons.mp h with h1 | h1
      · refine Or.inr ⟨?_, ?_⟩ <;> rw [h1]
        · exact List.mem_cons_self a l
        · exact hp
      · rcases ih false h1 with h2 | ⟨h2, h3⟩
        · exact Or.inl h2
        · exact Or.inr ⟨List.mem_cons_of_mem a h2, h3⟩

theorem head?_subRunsAux_true {p : Char → Bool} :
    ∀ {l : List Char} {c : Char}, (subRunsAux p true l).head? = some c → p c = false
  | [], c, h => by rw [subRunsAux_nil] at h; simp at h
  | a :: l, c, h => by
    cases hp : p a with
    | true =>
      rw [subRunsAux_cons_pos_true p hp] at h
      exact head?_subRunsAux_true h
    | false =>
      rw [subRunsAux_cons_neg p hp] at h
      simp only [List.head?_cons, Option.some.injEq] at h
      subst h
      exact hp

theorem subRunsAux_eq_self (p : Char → Bool) {l : List Char} :
    ∀ b : Bool, (∀ c ∈ l, p c = false) → subRunsAux p b l = l := by
  induction l with
  | nil => intro b _; exact subRunsAux_nil
  | cons a l ih =>
    intro b h
    rw [subRunsAux_cons_neg p (h a (List.mem_cons_self a l))]
    rw [ih false fun c hc => h c (List.mem_cons_of_mem a hc)]

theorem hdu_subRunsAux_und :
    ∀ (l : List Char) (b : Bool), hdu (subRunsAux (fun c => c == '_') b l) = false := by
  intro l
  induction l with
  | nil => intro b; rw [subRunsAux_nil]; rfl
  | cons a l ih =>
    intro b
    cases ha : (a == '_') with
    | true =>
      cases b with
      | true => rw [subRunsAux_cons_pos_true (fun c => c == '_') ha]; exact ih true
      | false =>
        rw [subRunsAux_cons_pos_false (fun c => c == '_') ha]
        refine hdu_false_intro ?_ (ih true)
        intro _ hh
        have := head?_subRunsAux_true hh
        simp at this
    | false =>
      rw [subRunsAux_cons_neg (fun c => c == '_') ha]
      refine hdu_false_intro ?_ (ih false)
      intro haa hh
      rw [haa] at ha
      simp at ha

theorem subRunsAux_und_eq_self :
    ∀ (l : List Char), hdu l = false →
      subRunsAux (fun c => c == '_') false l = l ∧
        (l.head? ≠ some '_' → subRunsAux (fun c => c == '_') true l = l) := by
  intro l
  induction l with
  | nil => intro _; exact ⟨subRunsAux_nil, fun _ => subRunsAux_nil⟩
  | cons a l ih =>
    intro h
    obtain ⟨ih1, ih2⟩ := ih (hdu_cons_false h)
    cases ha : (a == '_') with
    | true =>
      have ha' : a = '_' := by simpa using ha
      have hhead : l.head? ≠ some '_' := hdu_pair_head h ha'
      constructor
      · rw [subRunsAux_cons_pos_false (fun c => c == '_') ha, ih2 hhead, ha']
      · intro hne
        exact absurd (by simp [ha']) hne
    | false =>
      constructor
      · rw [subRunsAux_cons_neg (fun c => c == '_') ha, ih1]
      · intro _
        rw [subRunsAux_cons_neg (fun c => c == '_') ha, ih1]

theorem word_not_space {c : Char} (h : isPyWord c = true) : isPySpace c = false := by
  cases hs : isPySpace c with
  | false => rfl
  | true =>
    exfalso
    simp only [isPySpace, Bool.or_eq_true, beq_iff_eq] at hs
    rcases hs with ((((h1 | h1) | h1) | h1) | h1) | h1 <;> rw [h1] at h <;>
      exact absurd h (by decide)

/-! ### Properties of the sanitizer -/

theorem step1_chars {t : List Char} {c : Char} (h : c ∈ sanStep1 t) :
    isPyWord c = true ∨ isPySpace c = true := by
  simp only [sanStep1] at h
  obtain ⟨a, _, ha⟩ := List.mem_map.mp h
  cases hc : (isPyWord a || isPySpace a) with
  | true =>
    rw [if_pos hc] at ha
    rw [← ha]
    simpa using hc
  | false =>
    rw [if_neg (by simp [hc])] at ha
    rw [← ha]
    left
    decide

theorem step2_chars {l : List Char} {c : Char}
    (hl : ∀ d ∈ l, isPyWord d = true ∨ isPySpace d = true) (h : c ∈ sanStep2 l) :
    isPyWord c = true ∨ isPySpace c = true := by
  simp only [sanStep2] at h
  obtain ⟨a, hal, ha⟩ := List.mem_map.mp h
  cases hc : (a == '\n') with
  | true =>
    rw [if_pos hc] at ha
    rw [← ha]
    right
    decide
  | false =>
    rw [if_neg (by simp [hc])] at ha
    rw [← ha]
    exact hl a hal

theorem step3_chars {l : List Char} {c : Char}
    (hl : ∀ d ∈ l, isPyWord d = true ∨ isPySpace d = true) (h : c ∈ sanStep3 l) :
    isPyWord c = true ∧ isPySpace c = false := by
  simp only [sanStep3, subRuns] at h
  rcases mem_subRunsAux l false h with h1 | ⟨h2, h3⟩
  · rw [h1]
    exact ⟨by decide, by decide⟩
  · rcases hl c h2 with h4 | h4
    · exact ⟨h4, h3⟩
    · simp [h4] at h3

theorem step4_chars {l : List Char} {c : Char}
    (hl : ∀ d ∈ l, isPyWord d = true ∧ isPySpace d = false) (h : c ∈ sanStep4 l) :
    isPyWord c = true ∧ isPySpace c = false := by
  simp only [sanStep4, subRuns] at h
  rcases mem_subRunsAux l false h with h1 | ⟨h2, _⟩
  · rw [h1]
    exact ⟨by decide, by decide⟩
  · exact hl c h2

theorem clean_chars {t : List Char} {L : Nat} {c : Char}
    (h : c ∈ clean_text_for_filename t L) : isPyWord c = true ∧ isPySpace c = false := by
  have h4 : c ∈ sanStep4 (sanStep3 (sanStep2 (sanStep1 t))) := by
    simp only [clean_text_for_filename] at h
    have h5 := List.take_subset _ _ (mem_of_mem_rstripU h)
    exact mem_of_mem_dropWhile (by simpa only [sanStep5] using h5)
  refine step4_chars (fun d hd => ?_) h4
  exact step3_chars (fun e he => step2_chars (fun f hf => step1_chars hf) he) hd

theorem hdu_clean (t : List Char) (L : Nat) : hdu (clean_text_for_filename t L) = false := by
  simp only [clean_text_for_filename, sanStep5, sanStep4, subRuns]
  exact hdu_rstripU (hdu_take _ _ (hdu_dropWhile (hdu_subRunsAux_und _ false)))

theorem head_clean {t : List Char} {L : Nat} {c : Char}
    (h : (clean_text_for_filename t L).head? = some c) : c.isAlphanum = true := by
  simp only [clean_text_for_filename, sanStep5] at h
  have h3 := head?_dropWhile_false (head?_of_take (rstripU_head? h))
  simpa using h3

theorem length_clean (t : List Char) (L : Nat) : (clean_text_for_filename t L).length ≤ L := by
  simp only [clean_text_for_filename]
  obtain ⟨m, hm⟩ :=
    rstripU_eq_take ((sanStep5 (sanStep4 (sanStep3 (sanStep2 (sanStep1 t))))).take L)
  rw [hm]
  simp only [List.length_take]
  omega

theorem getLast_clean (t : List Char) (L : Nat) :
    (clean_text_for_filename t L).getLast? ≠ some '_' := by
  simp only [clean_text_for_filename]
  exact rstripU_getLast? _

theorem take_eq_self_of_le : ∀ {l : List Char} {n : Nat}, l.length ≤ n → l.take n = l
  | [], _, _ => by simp
  | a :: l, 0, h => by simp at h
  | a :: l, n + 1, h => by
    rw [List.take_succ_cons, take_eq_self_of_le (by simp only [List.length_cons] at h; omega)]

theorem clean_nil (L : Nat) : clean_text_for_filename [] L = [] := by
  simp [clean_text_for_filename, sanStep1, sanStep2, sanStep3, sanStep4, sanStep5,
    subRuns, subRunsAux, rstripU]

/-- Claim C3: for every input string `t` and every length budget `L`,
`clean_text_for_filename t L` has length at most `L`, contains no whitespace
character, contains no two consecutive underscores, and, when non-empty,
begins with an alphanumeric character. -/
theorem claim_C3 (t : List Char) (L : Nat) :
    (clean_text_for_filename t L).length ≤ L ∧
      (∀ c ∈ clean_text_for_filename t L, isPySpace c = false) ∧
      hdu (clean_text_for_filename t L) = false ∧
      (∀ c, (clean_text_for_filename t L).head? = some c → c.isAlphanum = true) :=
  ⟨length_clean t L, fun _ hc => (clean_chars hc).2, hdu_clean t L,
    fun _ hc => head_clean hc⟩

/-- Witness for `claim_C3` at the concrete input `"Hi there!"` with budget 10
(the sanitized result is `"Hi_there"`, whose head is `'H'`). -/
theorem claim_C3_witness :
    (clean_text_for_filename "Hi there!".data 10).length ≤ 10 ∧
      isPySpace 'H' = false ∧
      hdu (clean_text_for_filename "Hi there!".data 10) = false ∧
      'H'.isAlphanum = true :=
  ⟨(claim_C3 "Hi there!".data 10).1,
    (claim_C3 "Hi there!".data 10).2.1 'H' (by decide),
    (claim_C3 "Hi there!".data 10).2.2.1,
    (claim_C3 "Hi there!".data 10).2.2.2 'H' (by decide)⟩

/-- Claim C9: sanitization is idempotent on its own output — whenever the
sanitized text fits within the budget, a second pass changes nothing. -/
theorem claim_C9 (t : List Char) (L : Nat)
    (h : (clean_text_for_filename t L).length ≤ L) :
    clean_text_for_filename (clean_text_for_filename t L) L =
      clean_text_for_filename t L := by
  have hword : ∀ c ∈ clean_text_for_filename t L, isPyWord c = true :=
    fun c hc => (clean_chars hc).1
  have hspace : ∀ c ∈ clean_text_for_filename t L, isPySpace c = false :=
    fun c hc => (clean_chars hc).2
  have hhdu := hdu_clean t L
  have hlast := getLast_clean t L
  have hhead : ∀ c, (clean_text_for_filename t L).head? = some c → c.isAlphanum = true :=
    fun c hc => head_clean hc
  revert h hword hspace hhdu hlast hhead
  generalize clean_text_for_filename t L = s
  intro h hword hspace hhdu hlast hhead
  by_cases hnil : s = []
  · rw [hnil]
    exact clean_nil L
  have h1 : sanStep1 s = s := by
    refine map_eq_self_of fun c hc => ?_
    exact if_pos (by rw [hword c hc, Bool.true_or])
  have h2 : sanStep2 s = s := by
    refine map_eq_self_of fun c hc => ?_
    have hcn : (c == '\n') = false := by
      cases hh : (c == '\n') with
      | false => rfl
      | true =>
        have hc' : c = '\n' := by simpa using hh
        have hw := hword c hc
        rw [hc'] at hw
        exact absurd hw (by decide)
    exact if_neg (by simp [hcn])
  have h3 : sanStep3 s = s := by
    simp only [sanStep3, subRuns]
    exact subRunsAux_eq_self isPySpace false hspace
  have h4 : sanStep4 s = s := by
    simp only [sanStep4, subRuns]
    exact (subRunsAux_und_eq_self s hhdu).1
  have h5 : sanStep5 s = s := by
    obtain ⟨a, s', rfl⟩ := List.exists_cons_of_ne_nil hnil
    have ha : a.isAlphanum = true := hhead a rfl
    simp only [sanStep5]
    exact dropWhile_cons_self (by simp [ha])
  have h6 : s.take L = s := take_eq_self_of_le h
  have h7 : rstripU s = s := rstripU_eq_self hlast
  simp only [clean_text_for_filename]
  rw [h1, h2, h3, h4, h5, h6, h7]

/-- Witness for `claim_C9` at the concrete input `"Hi there!"` with budget 50. -/
theorem claim_C9_witness :
    clean_text_for_filename (clean_text_for_filename "Hi there!".data 50) 50 =
      clean_text_for_filename "Hi there!".data 50 :=
  claim_C9 "Hi there!".data 50 (by decide)

/-! ### Decimal digit strings -/

theorem valOf_append_digit (l : List Char) (c : Char) :
    valOf (l ++ [c]) = 10 * valOf l + chVal c := by
  simp [valOf, List.foldl_append]

theorem chVal_digitChar : ∀ d : Fin 10, chVal (Nat.digitChar d.val) = d.val := by decide

theorem digitChar_ne_und : ∀ d : Fin 10, (Nat.digitChar d.val == '_') = false := by decide

theorem valOf_toDecimalAux : ∀ (fuel n : Nat), n ≤ fuel → valOf (toDecimalAux fuel n) = n
  | 0, n, h => by
    have hn : n = 0 := Nat.le_zero.mp h
    subst hn
    rfl
  | fuel + 1, n, h => by
    by_cases hn : n = 0
    · subst hn
      rfl
    · have hrec : n / 10 ≤ fuel := by
        have hlt : n / 10 < n := Nat.div_lt_self (Nat.pos_of_ne_zero hn) (by norm_num)
        omega
      have hstep : toDecimalAux (fuel + 1) n
          = toDecimalAux fuel (n / 10) ++ [Nat.digitChar (n % 10)] := by
        simp [toDecimalAux, hn]
      rw [hstep, valOf_append_digit, valOf_toDecimalAux fuel (n / 10) hrec]
      have h10 : n % 10 < 10 := Nat.mod_lt _ (by norm_num)
      have hch : chVal (Nat.digitChar (n % 10)) = n % 10 := chVal_digitChar ⟨n % 10, h10⟩
      rw [hch]
      omega

theorem valOf_natDigits (n : Nat) : valOf (natDigits n) = n := by
  by_cases hn : n = 0
  · subst hn
    rfl
  · rw [natDigits, if_neg hn]
    exact valOf_toDecimalAux n n le_rfl

theorem natDigits_inj {m n : Nat} (h : natDigits m = natDigits n) : m = n := by
  have hv := valOf_natDigits m
  rw [h, valOf_natDigits] at hv
  omega

theorem mem_toDecimalAux : ∀ {fuel n : Nat} {c : Char}, c ∈ toDecimalAux fuel n →
    ∃ d : Fin 10, c = Nat.digitChar d.val
  | 0, n, c, h => by simp [toDecimalAux] at h
  | fuel + 1, n, c, h => by
    by_cases hn : n = 0
    · simp [toDecimalAux, hn] at h
    · simp only [toDecimalAux, if_neg hn] at h
      rcases List.mem_append.mp h with h1 | h1
      · exact mem_toDecimalAux h1
      · have hc : c = Nat.digitChar (n % 10) := by simpa using h1
        exact ⟨⟨n % 10, Nat.mod_lt _ (by norm_num)⟩, hc⟩

theorem natDigits_no_und {n : Nat} {c : Char} (h : c ∈ natDigits n) : (c == '_') = false := by
  by_cases hn : n = 0
  · subst hn
    have h0 : natDigits 0 = ['0'] := rfl
    rw [h0, List.mem_singleton] at h
    rw [h]
    decide
  · rw [natDigits, if_neg hn] at h
    obtain ⟨d, hd⟩ := mem_toDecimalAux h
    rw [hd]
    exact digitChar_ne_und d

theorem no_und_bne {c : Char} (h : (c == '_') = false) : (c != '_') = true := by
  simp [bne, h]

/-! ### The disambiguation loop -/

theorem takeWhile_append_stop : ∀ (l rest : List Char),
    (∀ c ∈ l, (c != '_') = true) →
    (l ++ '_' :: rest).takeWhile (fun c => c != '_') = l
  | [], rest, _ => by simp [List.takeWhile_cons]
  | a :: l, rest, h => by
    rw [List.cons_append, List.takeWhile_cons, if_pos (h a (List.mem_cons_self a l))]
    rw [takeWhile_append_stop l rest fun c hc => h c (List.mem_cons_of_mem a hc)]

theorem candidate_zero (base ext : List Char) : candidate base ext 0 = '_' :: (base ++ ext) := by
  simp [candidate]

theorem candidate_pos (base ext : List Char) {k : Nat} (hk : k ≠ 0) :
    candidate base ext k =
      '_' :: (pySlice base ((MAX_FILENAME_LENGTH : Int) - (natDigits k).length - ext.length - 2)
        ++ '_' :: (natDigits k ++ ext)) := by
  rw [candidate, if_neg hk]

theorem candidate_inj {base ext : List Char} {k1 k2 : Nat} (h1 : 1 ≤ k1) (h2 : 1 ≤ k2)
    (h : candidate base ext k1 = candidate base ext k2) : k1 = k2 := by
  rw [candidate_pos base ext (by omega : k1 ≠ 0), candidate_pos base ext (by omega : k2 ≠ 0)] at h
  generalize ht1 : pySlice base
    ((MAX_FILENAME_LENGTH : Int) - (natDigits k1).length - ext.length - 2) = t1 at h
  generalize ht2 : pySlice base
    ((MAX_FILENAME_LENGTH : Int) - (natDigits k2).length - ext.length - 2) = t2 at h
  simp only [List.cons.injEq, true_and] at h
  have h' : (t1 ++ '_' :: natDigits k1) ++ ext = (t2 ++ '_' :: natDigits k2) ++ ext := by
    simpa [List.append_assoc, List.cons_append] using h
  have hu := (List.append_inj' h' rfl).1
  have hr := congrArg List.reverse hu
  simp only [List.reverse_append, List.reverse_cons, List.append_assoc,
    List.singleton_append] at hr
  have htw := congrArg (List.takeWhile (fun c => c != '_')) hr
  rw [takeWhile_append_stop _ _ fun c hc =>
        no_und_bne (natDigits_no_und (List.mem_reverse.mp hc)),
      takeWhile_append_stop _ _ fun c hc =>
        no_und_bne (natDigits_no_und (List.mem_reverse.mp hc))] at htw
  have hd : natDigits k1 = natDigits k2 := by
    have hrr := congrArg List.reverse htw
    simpa using hrr
  exact natDigits_inj hd

theorem exists_free_bounded (base ext : List Char) (S : Finset (List Char)) :
    ∃ k, 1 ≤ k ∧ k ≤ S.card + 1 ∧ candidate base ext k ∉ S := by
  by_contra hcon
  push_neg at hcon
  have hmaps : ∀ k ∈ Finset.Icc 1 (S.card + 1), candidate base ext k ∈ S := by
    intro k hk
    rw [Finset.mem_Icc] at hk
    exact hcon k hk.1 hk.2
  have hinj : Set.InjOn (candidate base ext) (Finset.Icc 1 (S.card + 1)) := by
    intro a ha b hb hab
    rw [Finset.coe_Icc, Set.mem_Icc] at ha hb
    exact candidate_inj ha.1 hb.1 hab
  have hcard := Finset.card_le_card_of_injOn (candidate base ext) hmaps hinj
  rw [Nat.card_Icc] at hcard
  omega

theorem genLoopFuel_succ (base ext : List Char) (S : Finset (List Char)) (fuel k : Nat) :
    genLoopFuel base ext S (fuel + 1) k =
      if candidate base ext k ∈ S then genLoopFuel base ext S fuel (k + 1)
      else candidate base ext k := rfl

theorem genLoopFuel_spec (base ext : List Char) (S : Finset (List Char)) :
    ∀ (fuel k : Nat), (∃ j, j < fuel ∧ candidate base ext (k + j) ∉ S) →
      ∃ j, j < fuel ∧ candidate base ext (k + j) ∉ S ∧
        genLoopFuel base ext S fuel k = candidate base ext (k + j) ∧
        ∀ i, i < j → candidate base ext (k + i) ∈ S := by
  intro fuel
  induction fuel with
  | zero =>
    rintro k ⟨j, hj, _⟩
    omega
  | succ fuel ih =>
    rintro k ⟨j, hj, hfree⟩
    by_cases hmem : candidate base ext k ∈ S
    · have hj0 : j ≠ 0 := by
        intro h0
        rw [h0, Nat.add_zero] at hfree
        exact hfree hmem
      obtain ⟨j', hj', hfree', heq, hmin⟩ := ih (k + 1)
        ⟨j - 1, by omega, by
          have hsh : k + 1 + (j - 1) = k + j := by omega
          rw [hsh]
          exact hfree⟩
      refine ⟨j' + 1, by omega, ?_, ?_, ?_⟩
      · have hsh : k + (j' + 1) = k + 1 + j' := by omega
        rw [hsh]
        exact hfree'
      · rw [genLoopFuel_succ, if_pos hmem]
        have hsh : k + (j' + 1) = k + 1 + j' := by omega
        rw [hsh]
        exact heq
      · intro i hi
        cases i with
        | zero =>
          rw [Nat.add_zero]
          exact hmem
        | succ i' =>
          have hsh : k + (i' + 1) = k + 1 + i' := by omega
          rw [hsh]
          exact hmin i' (by omega)
    · refine ⟨0, by omega, ?_, ?_, ?_⟩
      · rw [Nat.add_zero]
        exact hmem
      · rw [genLoopFuel_succ, if_neg hmem, Nat.add_zero]
      · intro i hi
        omega

theorem gen_not_mem (base ext : List Char) (S : Finset (List Char)) :
    generate_unique_filename base ext S ∉ S := by
  obtain ⟨k, hk1, hk2, hfree⟩ := exists_free_bounded base ext S
  obtain ⟨j, _, hfree', heq, _⟩ := genLoopFuel_spec base ext S (S.card + 2) 0
    ⟨k, by omega, by rw [Nat.zero_add]; exact hfree⟩
  show genLoopFuel base ext S (S.card + 2) 0 ∉ S
  rw [heq]
  exact hfree'

/-- Claim C1: for every base name, extension and finite set of existing
names, `generate_unique_filename` returns a name that is not a member of the
set (its first candidate is `_<base><ext>`; on collision counter-suffixed
candidates are tried until a free one is found). -/
theorem claim_C1 (base ext : List Char) (S : Finset (List Char)) :
    generate_unique_filename base ext S ∉ S :=
  gen_not_mem base ext S

/-- Claim C4: for every base name shorter than the maximum filename length,
every extension, and every finite registry, the counter-incrementing loop of
`generate_unique_filename` reaches a name outside the registry after at most
`S.card + 1` counter increments, and the function returns the first such
candidate. -/
theorem claim_C4 (base ext : List Char) (S : Finset (List Char))
    (_h : base.length < MAX_FILENAME_LENGTH) :
    ∃ k, k ≤ S.card + 1 ∧ candidate base ext k ∉ S ∧
      generate_unique_filename base ext S = candidate base ext k ∧
      ∀ i, i < k → candidate base ext i ∈ S := by
  obtain ⟨k0, hk1, hk2, hfree⟩ := exists_free_bounded base ext S
  obtain ⟨j, hj, hfree', heq, hmin⟩ := genLoopFuel_spec base ext S (S.card + 2) 0
    ⟨k0, by omega, by rw [Nat.zero_add]; exact hfree⟩
  refine ⟨j, by omega, ?_, ?_, ?_⟩
  · rw [← Nat.zero_add j]
    exact hfree'
  · show genLoopFuel base ext S (S.card + 2) 0 = candidate base ext j
    rw [heq, Nat.zero_add]
  · intro i hi
    have := hmin i hi
    rwa [Nat.zero_add] at this

/-- Witness for `claim_C4`: base `"a"`, extension `".jpg"`, empty registry. -/
theorem claim_C4_witness :
    ∃ k, k ≤ (∅ : Finset (List Char)).card + 1 ∧
      candidate "a".data ".jpg".data k ∉ (∅ : Finset (List Char)) ∧
      generate_unique_filename "a".data ".jpg".data ∅ = candidate "a".data ".jpg".data k ∧
      ∀ i, i < k → candidate "a".data ".jpg".data i ∈ (∅ : Finset (List Char)) :=
  claim_C4 "a".data ".jpg".data ∅ (by decide)

/-! ### Discovery and the rename pipeline -/

theorem lowerLookup_ne : ∀ (ps : List (Char × Char)) (c x : Char),
    (∀ pr ∈ ps, pr.2 ≠ x) → c ≠ x → lowerLookup ps c ≠ x
  | [], _, _, _, hc => hc
  | (u, l) :: rest, c, x, hps, hc => by
    show (if c = u then l else lowerLookup rest c) ≠ x
    by_cases h : c = u
    · rw [if_pos h]
      exact hps (u, l) (List.mem_cons_self _ _)
    · rw [if_neg h]
      exact lowerLookup_ne rest c x (fun pr hpr => hps pr (List.mem_cons_of_mem _ hpr)) hc

theorem pyToLower_ne_P (c : Char) : pyToLower c ≠ 'P' := by
  by_cases hc : c = 'P'
  · rw [hc]
    decide
  · exact lowerLookup_ne lowerPairs c 'P' (by decide) hc

theorem pyToLower_ne_J (c : Char) : pyToLower c ≠ 'J' := by
  by_cases hc : c = 'J'
  · rw [hc]
    decide
  · exact lowerLookup_ne lowerPairs c 'J' (by decide) hc

theorem pyLower_ne_PNG (s : List Char) : pyLower s ≠ ".PNG".data := by
  intro h
  have hd : ".PNG".data = ['.', 'P', 'N', 'G'] := rfl
  rw [hd] at h
  cases s with
  | nil => simp [pyLower] at h
  | cons a s' =>
    cases s' with
    | nil => simp [pyLower] at h
    | cons b s'' =>
      simp only [pyLower, List.map_cons, List.cons.injEq] at h
      exact pyToLower_ne_P b h.2.1

theorem pyLower_ne_JPG (s : List Char) : pyLower s ≠ "JPG".data := by
  intro h
  have hd : "JPG".data = ['J', 'P', 'G'] := rfl
  rw [hd] at h
  cases s with
  | nil => simp [pyLower] at h
  | cons a s' =>
    simp only [pyLower, List.map_cons, List.cons.injEq] at h
    exact pyToLower_ne_J a h.1

theorem pyStem_head_of_suffix_ne {name : List Char} (h : pySuffix name ≠ []) :
    (pyStem name).head? = name.head? := by
  cases hidx : lastDotIdx name with
  | none =>
    simp only [pySuffix, hidx] at h
    exact absurd rfl h
  | some i =>
    simp only [pySuffix, hidx] at h
    simp only [pyStem, hidx]
    by_cases hcond : 0 < i ∧ i < name.length - 1
    · rw [if_pos hcond]
      exact take_head?_pos hcond.1
    · rw [if_neg hcond] at h
      exact absurd rfl h

theorem suffix_ne_of_lower_mem {name : List Char}
    (h : pyLower (pySuffix name) ∈
      ([".jpg".data, ".jpeg".data, ".png".data, ".gif".data] : List (List Char))) :
    pySuffix name ≠ [] := by
  intro hnil
  rw [hnil] at h
  have hl : pyLower ([] : List Char) = [] := rfl
  rw [hl] at h
  exact absurd h (by decide)

/-- Claim C6: a directory entry is kept by the discoverer (with the class
default `skip_existing = True`) iff it is a regular file, its lowercased
suffix is one of `.jpg`, `.jpeg`, `.png`, `.gif` (so any case variant of
these is accepted and nothing else is — the `.PNG` and dot-less `JPG` set
members are unreachable after lowercasing), and its name does not start with
the sentinel `'_'`. -/
theorem claim_C6 (e : DirEntry) :
    is_valid_image_file true e = true ↔
      (e.isRegularFile = true ∧
        pyLower (pySuffix e.name) ∈
          ([".jpg".data, ".jpeg".data, ".png".data, ".gif".data] : List (List Char)) ∧
        e.name.head? ≠ some '_') := by
  constructor
  · intro h
    rw [is_valid_image_file] at h
    by_cases hf : e.isRegularFile = true
    · rw [if_neg (by simp [hf])] at h
      by_cases hs : (pyStem e.name).head? = some '_'
      · rw [if_pos (by simp [hs])] at h
        exact absurd h (by simp)
      · rw [if_neg (by simp [hs])] at h
        have hmem := of_decide_eq_true h
        simp only [VALID_EXTENSIONS, List.mem_cons, List.mem_singleton,
          List.not_mem_nil, or_false] at hmem
        have hmem4 : pyLower (pySuffix e.name) ∈
            ([".jpg".data, ".jpeg".data, ".png".data, ".gif".data] : List (List Char)) := by
          rcases hmem with h1 | h1 | h1 | h1 | h1 | h1
          · simp [h1]
          · simp [h1]
          · simp [h1]
          · simp [h1]
          · exact absurd h1 (pyLower_ne_PNG _)
          · exact absurd h1 (pyLower_ne_JPG _)
        refine ⟨hf, hmem4, ?_⟩
        rw [← pyStem_head_of_suffix_ne (suffix_ne_of_lower_mem hmem4)]
        exact hs
    · have hff : e.isRegularFile = false := by
        revert hf
        cases e.isRegularFile <;> simp
      rw [if_pos (by simp [hff])] at h
      exact absurd h (by simp)
  · rintro ⟨hf, hmem4, hname⟩
    rw [is_valid_image_file]
    rw [if_neg (by simp [hf])]
    have hstem : (pyStem e.name).head? = e.name.head? :=
      pyStem_head_of_suffix_ne (suffix_ne_of_lower_mem hmem4)
    rw [if_neg (by simp [hstem, hname])]
    apply decide_eq_true
    simp only [VALID_EXTENSIONS, List.mem_cons, List.mem_singleton]
    simp only [List.mem_cons, List.mem_singleton, List.not_mem_nil, or_false] at hmem4
    rcases hmem4 with h1 | h1 | h1 | h1 <;> simp [h1]

/-- Claim C2 (evaluation of the argparse wiring at the failing input): with
no CLI flag, `skip_existing` is stored as `false`, so the already-tagged file
`_already_tagged.jpg` IS discovered; with `--process-all`, `skip_existing`
becomes `true` and the file is skipped — the exact opposite of the
documented behaviour. -/
theorem claim_C2 :
    is_valid_image_file (cli_skip_existing false) ⟨"_already_tagged.jpg".data, true⟩ = true ∧
      is_valid_image_file (cli_skip_existing true) ⟨"_already_tagged.jpg".data, true⟩ = false := by
  constructor <;> decide

/-- Claim C7: `extract_text_from_image` is total on the outcome of the
underlying image/OCR call: any raised error yields `none`, an empty OCR
string yields `none`, and a non-empty OCR string yields its stripped form. -/
theorem claim_C7 :
    (∀ e : Unit, extract_text_from_image (Except.error e) = none) ∧
      extract_text_from_image (Except.ok []) = none ∧
      ∀ t : List Char, t ≠ [] →
        extract_text_from_image (Except.ok t) = some (pyStrip t) := by
  refine ⟨fun _ => rfl, rfl, fun t ht => ?_⟩
  cases t with
  | nil => exact absurd rfl ht
  | cons a t' => rfl

/-- Witness for `claim_C7` at the OCR output `" hi "`. -/
theorem claim_C7_witness :
    extract_text_from_image (Except.ok " hi ".data) = some (pyStrip " hi ".data) :=
  claim_C7.2.2 " hi ".data (by decide)

/-- Claim C8: `process_image` is total on the per-file outcomes (no
exception escapes), and when the rename syscall fails the shared registry is
left unchanged and no rename is recorded; when the rename succeeds, exactly
one fresh name is inserted. -/
theorem claim_C8 (img : ImageFile) (ocrResult : Except Unit (List Char))
    (S : Finset (List Char)) :
    (process_image img ocrResult false S).1 = S ∧
      (process_image img ocrResult false S).2 = none ∧
      ∃ n, n ∉ S ∧ (process_image img ocrResult true S).1 = insert n S ∧
        (process_image img ocrResult true S).2 = some ⟨img.path.parent, n⟩ :=
  ⟨rfl, rfl,
    generate_unique_filename (base_name_for img (extract_text_from_image ocrResult) S)
      img.extension S,
    gen_not_mem _ _ _, rfl, rfl⟩

/-- Claim C10: an OCR result consisting only of whitespace is treated
exactly like absent text — the file gets the generic fallback base name
`meme_<N>` where `N` is the current registry size. -/
theorem claim_C10 (img : ImageFile) (S : Finset (List Char)) (r : Bool) (t : List Char)
    (ht : t ≠ []) (hws : ∀ c ∈ t, isPySpace c = true) :
    process_image img (Except.ok t) r S = process_image img (Except.error ()) r S ∧
      base_name_for img (extract_text_from_image (Except.ok t)) S =
        "meme_".data ++ natDigits S.card := by
  have hstrip : pyStrip t = [] := by
    rw [pyStrip, dropWhile_all_nil hws]
    rfl
  have hex : extract_text_from_image (Except.ok t) = some [] := by
    cases t with
    | nil => exact absurd rfl ht
    | cons a t' =>
      have hred : extract_text_from_image (Except.ok (a :: t')) = some (pyStrip (a :: t')) := rfl
      rw [hred, hstrip]
  have hnone : extract_text_from_image (Except.error ()) = none := rfl
  have hsome : base_name_for img (some ([] : List Char)) S = base_name_for img none S := rfl
  constructor
  · simp only [process_image, hex, hnone, hsome]
  · rw [hex]
    rfl

/-- Witness for `claim_C10` at the whitespace-only OCR output `" "`. -/
theorem claim_C10_witness :
    process_image (mkImageFile ⟨"d".data, "a.png".data⟩) (Except.ok " ".data) true ∅ =
        process_image (mkImageFile ⟨"d".data, "a.png".data⟩) (Except.error ()) true ∅ ∧
      base_name_for (mkImageFile ⟨"d".data, "a.png".data⟩)
          (extract_text_from_image (Except.ok " ".data)) ∅ =
        "meme_".data ++ natDigits (∅ : Finset (List Char)).card :=
  claim_C10 (mkImageFile ⟨"d".data, "a.png".data⟩) ∅ true " ".data (by decide) (by decide)

theorem candidate_ends (base ext : List Char) (k : Nat) :
    ∃ pre, candidate base ext k = pre ++ ext := by
  by_cases hk : k = 0
  · subst hk
    exact ⟨'_' :: base, by simp [candidate_zero]⟩
  · refine ⟨'_' :: (pySlice base ((MAX_FILENAME_LENGTH : Int) - (natDigits k).length
      - ext.length - 2) ++ '_' :: natDigits k), ?_⟩
    rw [candidate_pos base ext hk]
    simp [List.append_assoc, List.cons_append]

theorem genLoopFuel_ends (base ext : List Char) (S : Finset (List Char)) :
    ∀ (fuel k : Nat), ∃ pre, genLoopFuel base ext S fuel k = pre ++ ext
  | 0, k => candidate_ends base ext k
  | fuel + 1, k => by
    by_cases hmem : candidate base ext k ∈ S
    · rw [genLoopFuel_succ, if_pos hmem]
      exact genLoopFuel_ends base ext S fuel (k + 1)
    · rw [genLoopFuel_succ, if_neg hmem]
      exact candidate_ends base ext k

theorem generate_ends (base ext : List Char) (S : Finset (List Char)) :
    ∃ pre, generate_unique_filename base ext S = pre ++ ext :=
  genLoopFuel_ends base ext S (S.card + 2) 0

/-- Counterexample to claim C5 as stated: the file `scan.PNG` has original
suffix `.PNG`, yet `process_image` renames it to `_meme_0.png`, which does
not end in `.PNG` — the extension is preserved only up to lowercasing. -/
theorem claim_C5_cex :
    pySuffix "scan.PNG".data = ".PNG".data ∧
      (process_image (mkImageFile ⟨"d".data, "scan.PNG".data⟩) (Except.error ()) true ∅).2 =
        some ⟨"d".data, "_meme_0.png".data⟩ ∧
      List.isSuffixOf ".PNG".data "_meme_0.png".data = false :=
  ⟨by decide, by decide, by decide⟩

/-- Claim C5 (amended): every rename performed by `process_image` stays in
the original parent directory, and the new name ends with the lowercased
original extension (uppercase extensions are lowercased, not preserved
verbatim). -/
theorem claim_C5 (p : PyPath) (ocrResult : Except Unit (List Char)) (S : Finset (List Char))
    (r : Bool) (q : PyPath)
    (h : (process_image (mkImageFile p) ocrResult r S).2 = some q) :
    q.parent = p.parent ∧ ∃ pre, q.name = pre ++ pyLower (pySuffix p.name) := by
  cases r with
  | false => simp [process_image] at h
  | true =>
    simp only [process_image, if_pos, Option.some.injEq] at h
    rw [← h]
    exact ⟨rfl, generate_ends _ _ _⟩

/-- Witness for `claim_C5` at the concrete file `a.PNG` (renamed to
`_meme_0.png` in the same directory `d`). -/
theorem claim_C5_witness :
    (⟨"d".data, "_meme_0.png".data⟩ : PyPath).parent =
        (⟨"d".data, "a.PNG".data⟩ : PyPath).parent ∧
      ∃ pre, (⟨"d".data, "_meme_0.png".data⟩ : PyPath).name =
        pre ++ pyLower (pySuffix (⟨"d".data, "a.PNG".data⟩ : PyPath).name) :=
  claim_C5 ⟨"d".data, "a.PNG".data⟩ (Except.error ()) ∅ true
    ⟨"d".data, "_meme_0.png".data⟩ (by decide)

